import Mathlib

/-!
Verification development for the `equalizador` audio plugin
(`Source/PluginProcessor.h`, `Source/PluginProcessor.cpp`,
`Source/PluginEditor.h`, `Source/PluginEditor.cpp`).

The C++ source is shallowly embedded: machine floats are idealised as `ℚ`
(with an explicit four-point domain `FVal` where NaN/infinity behaviour
matters), fixed-size arrays become `List`s with explicit length
invariants, and the external JUCE library functions that the source calls
are translated from their (stable, documented) JUCE implementations
(`juce::AbstractFifo`, `juce::jmap`, `juce::mapFromLog10`,
`juce::Decibels::gainToDecibels`) or treated as uninterpreted functions
(`std::log10`, the Butterworth/peak coefficient designs, the per-sample
biquad step) where only data flow, not numerics, decides the claims.
-/

namespace Equalizador

/-! ## The generic Fifo (PluginProcessor.h lines 15-76)

`Fifo<T>` stores `std::array<T, 30> buffers` and a `juce::AbstractFifo
fifo{30}`.  `juce::AbstractFifo` keeps two cursors `validStart` and
`validEnd` into a buffer of `bufferSize = 30` slots.  Its operations
(translated from JUCE's AbstractFifo implementation):

* `prepareToWrite n`: `freeSpace = ve >= vs ? size - (ve - vs) : vs - ve;
  numToWrite = min n (freeSpace - 1)`; if `numToWrite <= 0` all block
  sizes are zero, otherwise `startIndex1 = ve`,
  `blockSize1 = min (size - ve) numToWrite`, and the remainder wraps to
  index 0 (`blockSize2`).  Note the `- 1`: one slot is always reserved,
  so at most 29 elements can ever be stored.
* `finishedWrite n`: `ve := ve + n`, subtracting `size` once if the
  result reaches `size`.
* `prepareToRead n`: `numReady = ve >= vs ? ve - vs : size - (vs - ve);
  numToRead = min n numReady`; block layout as for writing but starting
  at `vs`.
* `finishedRead n`: `vs := vs + n`, subtracting `size` once if the
  result reaches `size`.

`Fifo::push` does `write(1)` and copies `t` into
`buffers[startIndex1]` when `blockSize1 > 0`; `Fifo::pull` does
`read(1)` and copies `buffers[startIndex1]` out when `blockSize1 > 0`.
The scoped write/read always runs `finishedWrite`/`finishedRead` with
the total block size.
-/

/-- State of `Fifo<T>`: the slot array plus the two `AbstractFifo` cursors. -/
structure Fifo (α : Type) where
  buffers : List α
  validStart : ℕ
  validEnd : ℕ
deriving DecidableEq

namespace Fifo

/-- `static constexpr int Capacity = 30`. -/
def capacity : ℕ := 30

/-- `prepare`: every slot is reset to a cleared element `init`, and the
`AbstractFifo` cursors start at zero. -/
def prepare {α : Type} (init : α) : Fifo α :=
  ⟨List.replicate capacity init, 0, 0⟩

/-- `AbstractFifo::getNumReady`. -/
def numReady {α : Type} (f : Fifo α) : ℕ :=
  if f.validStart ≤ f.validEnd then f.validEnd - f.validStart
  else capacity - (f.validStart - f.validEnd)

/-- The `freeSpace` quantity computed inside `AbstractFifo::prepareToWrite`. -/
def freeSpace {α : Type} (f : Fifo α) : ℕ :=
  if f.validStart ≤ f.validEnd then capacity - (f.validEnd - f.validStart)
  else f.validStart - f.validEnd

/-- `Fifo::push`: `write(1)`, store into `buffers[startIndex1]` if
`blockSize1 > 0` and report success, then `finishedWrite`. -/
def push {α : Type} (f : Fifo α) (x : α) : Bool × Fifo α :=
  let numToWrite := min 1 (f.freeSpace - 1)
  let blockSize1 := if numToWrite = 0 then 0 else min (capacity - f.validEnd) numToWrite
  let blockSize2 := if numToWrite - blockSize1 = 0 then 0
                    else min (numToWrite - blockSize1) f.validStart
  let newEnd0 := f.validEnd + (blockSize1 + blockSize2)
  let newEnd := if capacity ≤ newEnd0 then newEnd0 - capacity else newEnd0
  if 0 < blockSize1 then
    (true, ⟨f.buffers.set f.validEnd x, f.validStart, newEnd⟩)
  else
    (false, ⟨f.buffers, f.validStart, newEnd⟩)

/-- `Fifo::pull`: `read(1)`, copy `buffers[startIndex1]` out if
`blockSize1 > 0`, then `finishedRead`. -/
def pull {α : Type} (f : Fifo α) : Option α × Fifo α :=
  let numToRead := min 1 f.numReady
  let blockSize1 := if numToRead = 0 then 0 else min (capacity - f.validStart) numToRead
  let blockSize2 := if numToRead - blockSize1 = 0 then 0
                    else min (numToRead - blockSize1) f.validEnd
  let newStart0 := f.validStart + (blockSize1 + blockSize2)
  let newStart := if capacity ≤ newStart0 then newStart0 - capacity else newStart0
  if 0 < blockSize1 then
    (f.buffers.get? f.validStart, ⟨f.buffers, newStart, f.validEnd⟩)
  else
    (none, ⟨f.buffers, newStart, f.validEnd⟩)

/-- `Fifo::getNumAvailableForReading` = `AbstractFifo::getNumReady`. -/
def getNumAvailableForReading {α : Type} (f : Fifo α) : ℕ := f.numReady

/-- Structural invariant maintained by every operation: the slot array has
the fixed size 30 and both cursors are in range. -/
def Inv {α : Type} (f : Fifo α) : Prop :=
  f.buffers.length = capacity ∧ f.validStart < capacity ∧ f.validEnd < capacity

instance {α : Type} (f : Fifo α) : Decidable f.Inv := by
  unfold Fifo.Inv
  infer_instance

/-- Pushing the elements of a list one after another, collecting the
returned success flags. -/
def pushAll {α : Type} : Fifo α → List α → List Bool × Fifo α
  | f, [] => ([], f)
  | f, x :: xs =>
      let r := f.push x
      let rest := pushAll r.2 xs
      (r.1 :: rest.1, rest.2)

/-- Pulling `n` times in a row, collecting the results. -/
def pullN {α : Type} : Fifo α → ℕ → List (Option α) × Fifo α
  | f, 0 => ([], f)
  | f, n + 1 =>
      let r := f.pull
      let rest := pullN r.2 n
      (r.1 :: rest.1, rest.2)

end Fifo

/-- Writing the elements of `xs` into consecutive slots of `bufs`
starting at index `i` (the footprint of a run of successful pushes). -/
def writeList {α : Type} : List α → ℕ → List α → List α
  | bufs, _, [] => bufs
  | bufs, i, x :: xs => writeList (bufs.set i x) (i + 1) xs

/-! ## SingleChannelSampleFifo (PluginProcessor.h lines 78-204) -/

/-- The `Channel` enum: `Right` has value 0, `Left` has value 1. -/
inductive Channel
  | Right
  | Left
deriving DecidableEq

/-- The numeric value of a `Channel` enum constant (its position). -/
def Channel.toIndex : Channel → ℕ
  | .Right => 0
  | .Left => 1

/-- A `juce::AudioBuffer`: a list of channels, each a list of samples. -/
structure AudioBuffer (α : Type) where
  channels : List (List α)
deriving DecidableEq

/-- State of `SingleChannelSampleFifo<BlockType>`: the configured channel,
the running index into the accumulation buffer, the inner block fifo and
the accumulation buffer itself.  The `prepared`/`size` atomics are
represented by the structure being in a post-`prepare` state. -/
structure SingleChannelSampleFifo (α : Type) where
  channelToUse : Channel
  fifoIndex : ℕ
  audioBufferFifo : Fifo (List α)
  bufferToFill : List α
deriving DecidableEq

namespace SingleChannelSampleFifo

/-- `prepare(bufferSize)`: the accumulation buffer becomes `bufferSize`
cleared samples (`z` is the cleared sample value), the inner fifo is
re-prepared with cleared blocks of that size, and `fifoIndex` restarts
at 0. -/
def prepare {α : Type} (ch : Channel) (bufferSize : ℕ) (z : α) :
    SingleChannelSampleFifo α :=
  ⟨ch, 0, Fifo.prepare (List.replicate bufferSize z), List.replicate bufferSize z⟩

/-- `pushNextSampleIntoFifo(sample)`: if the accumulation buffer is
already full, push it into the block fifo (its success flag is ignored)
and restart at index 0; then store the sample at `fifoIndex` and
advance. -/
def pushNextSampleIntoFifo {α : Type} (s : SingleChannelSampleFifo α) (sample : α) :
    SingleChannelSampleFifo α :=
  let s' :=
    if s.fifoIndex = s.bufferToFill.length then
      { s with audioBufferFifo := (s.audioBufferFifo.push s.bufferToFill).2,
               fifoIndex := 0 }
    else s
  { s' with bufferToFill := s'.bufferToFill.set s'.fifoIndex sample,
            fifoIndex := s'.fifoIndex + 1 }

/-- Feeding a run of samples one by one (the loop body of `update`). -/
def deliver {α : Type} (s : SingleChannelSampleFifo α) (samples : List α) :
    SingleChannelSampleFifo α :=
  samples.foldl pushNextSampleIntoFifo s

/-- `update(buffer)`: assert the buffer has more channels than
`channelToUse`, then feed every sample of that channel.  A buffer without
that channel fails the assertion (an out-of-range read), modelled as
`none`. -/
def update {α : Type} (s : SingleChannelSampleFifo α) (buffer : AudioBuffer α) :
    Option (SingleChannelSampleFifo α) :=
  match buffer.channels.get? s.channelToUse.toIndex with
  | some channelData => some (s.deliver channelData)
  | none => none

/-- `getNumCompleteBuffersAvailable`. -/
def getNumCompleteBuffersAvailable {α : Type} (s : SingleChannelSampleFifo α) : ℕ :=
  s.audioBufferFifo.getNumAvailableForReading

/-- `getAudioBuffer(buf)`: pull one complete block from the inner fifo. -/
def getAudioBuffer {α : Type} (s : SingleChannelSampleFifo α) :
    Option (List α) × SingleChannelSampleFifo α :=
  let r := s.audioBufferFifo.pull
  (r.1, { s with audioBufferFifo := r.2 })

end SingleChannelSampleFifo

/-- The `i`-th analysis block of the sample stream `xs` for block size `B`. -/
def chunk {α : Type} (xs : List α) (B i : ℕ) : List α :=
  (xs.drop (i * B)).take B

/-- The first `k` analysis blocks of the sample stream `xs`. -/
def chunkList {α : Type} (xs : List α) (B k : ℕ) : List (List α) :=
  (List.range k).map (chunk xs B)

/-! ## Slope, ChainSettings and coefficient values
(PluginProcessor.h lines 206-283, PluginProcessor.cpp lines 94-141) -/

/-- The `Slope` enum. -/
inductive Slope
  | Slope_12
  | Slope_24
  | Slope_36
  | Slope_48
deriving DecidableEq

/-- The enum value of a `Slope` constant (0, 1, 2, 3). -/
def Slope.ord : Slope → ℕ
  | .Slope_12 => 0
  | .Slope_24 => 1
  | .Slope_36 => 2
  | .Slope_48 => 3

/-- `struct ChainSettings` (the default member initialisers are
`peakFreq 0, peakGain 0, peakQuality 1, lowCutFreq 0, highCutFreq 0`
and both slopes `Slope_12`). -/
structure ChainSettings where
  peakFreq : ℚ
  peakGain : ℚ
  peakQuality : ℚ
  lowCutFreq : ℚ
  highCutFreq : ℚ
  lowCutSlope : Slope
  highCutSlope : Slope
deriving DecidableEq

/-- The default-constructed `ChainSettings`. -/
def defaultChainSettings : ChainSettings :=
  ⟨0, 0, 1, 0, 0, .Slope_12, .Slope_12⟩

/-- Values held by a `juce::dsp::IIR::Filter<float>` coefficient object.
The numeric designs live in the JUCE library (`FilterDesign`,
`Coefficients::makePeakFilter`), outside this repository; each is a pure
function of its arguments, embedded as a free constructor recording
exactly those arguments (`idx` selects one second-order section of a
high-order design's array).  `base` is a default-constructed coefficient
set.  `juce::Decibels::decibelsToGain` is strictly monotone, hence
injective, so recording the dB gain argument of the peak design is
equivalent to recording the linear gain passed to JUCE. -/
inductive CoeffVal
  | base
  | designHighpass (freq : ℚ) (sampleRate : ℚ) (order : ℕ) (idx : ℕ)
  | designLowpass (freq : ℚ) (sampleRate : ℚ) (order : ℕ) (idx : ℕ)
  | peaking (sampleRate : ℚ) (freq : ℚ) (quality : ℚ) (gainDb : ℚ)
deriving DecidableEq

/-- `makeLowCutFilter`:
`designIIRHighpassHighOrderButterworthMethod(lowCutFreq, sampleRate,
2 * (lowCutSlope + 1))`, an array of second-order coefficient sets. -/
def makeLowCutFilter (chainSettings : ChainSettings) (sampleRate : ℚ) : ℕ → CoeffVal :=
  fun idx => .designHighpass chainSettings.lowCutFreq sampleRate
    (2 * (chainSettings.lowCutSlope.ord + 1)) idx

/-- `makeHighCutFilter`:
`designIIRLowpassHighOrderButterworthMethod(highCutFreq, sampleRate,
2 * (highCutSlope + 1))`. -/
def makeHighCutFilter (chainSettings : ChainSettings) (sampleRate : ℚ) : ℕ → CoeffVal :=
  fun idx => .designLowpass chainSettings.highCutFreq sampleRate
    (2 * (chainSettings.highCutSlope.ord + 1)) idx

/-- `makePeakFilter`: `Coefficients::makePeakFilter(sampleRate, peakFreq,
peakQuality, decibelsToGain(peakGain))`. -/
def makePeakFilter (chainSettings : ChainSettings) (sampleRate : ℚ) : CoeffVal :=
  .peaking sampleRate chainSettings.peakFreq chainSettings.peakQuality chainSettings.peakGain

/-- `updateCoefficients(old, replacements)` executes
`*old = *replacements` (PluginProcessor.cpp lines 94-97): the
coefficient object's value — a `juce::Array<float>` of polynomial
coefficients, here `List ℚ` — is copy-assigned as a whole from the
replacement.  The assignment builds the copy element by element from the
replacement alone. -/
def updateCoefficients (old replacements : List ℚ) : List ℚ :=
  replacements.foldr List.cons []

/-- The effect of `updateCoefficients` at the level of whole coefficient
values (`*old = *replacements` leaves the object holding exactly the
replacement's value; `updateCoefficients_wholesale` proves this for the
array representation). -/
def updateCoefficientsVal (old replacements : CoeffVal) : CoeffVal :=
  replacements

/-! ## Filter sections and chains

The processor owns two `juce::dsp::ProcessorChain`s, each
`{4-section low-cut sub-chain, peak filter, 4-section high-cut
sub-chain}` of `IIR::Filter<float>`.  An `IIR::Filter` holds a
coefficient object and its difference-equation state; a chain entry also
has a bypass flag (default false).  The per-sample numeric step of a
biquad lives in JUCE, so processing is parameterised by an arbitrary
step function `SectionStep` from coefficients, filter state and an input
sample to the output sample and next state. -/

/-- One `juce::dsp::IIR::Filter<float>` inside a `ProcessorChain` slot:
its coefficients, the slot's bypass flag, and the filter's internal
difference-equation state. -/
structure FilterSection where
  coefficients : CoeffVal
  bypassed : Bool
  state : ℚ × ℚ
deriving DecidableEq

/-- The uninterpreted per-sample biquad step (JUCE's
`IIR::Filter::processSample`): coefficients → state → input sample →
(output sample, next state). -/
def SectionStep : Type :=
  CoeffVal → (ℚ × ℚ) → ℚ → ℚ × (ℚ × ℚ)

/-- A 4-section cut sub-chain (the nested `ProcessorChain` of four
`IIR::Filter<float>`). -/
structure CutChain where
  s0 : FilterSection
  s1 : FilterSection
  s2 : FilterSection
  s3 : FilterSection
deriving DecidableEq

/-- `chain.get<i>()`. -/
def CutChain.get : CutChain → Fin 4 → FilterSection
  | c, ⟨0, _⟩ => c.s0
  | c, ⟨1, _⟩ => c.s1
  | c, ⟨2, _⟩ => c.s2
  | c, ⟨3, _⟩ => c.s3

/-- `chain.setBypassed<i>(b)`. -/
def CutChain.setBypassed : CutChain → Fin 4 → Bool → CutChain
  | c, ⟨0, _⟩, b => { c with s0 := { c.s0 with bypassed := b } }
  | c, ⟨1, _⟩, b => { c with s1 := { c.s1 with bypassed := b } }
  | c, ⟨2, _⟩, b => { c with s2 := { c.s2 with bypassed := b } }
  | c, ⟨3, _⟩, b => { c with s3 := { c.s3 with bypassed := b } }

/-- The free template `update<index>(chain, coefficients)`:
`updateCoefficients(chain.get<index>().coefficients,
coefficients[index]); chain.setBypassed<index>(false)`. -/
def CutChain.updateSec (c : CutChain) (i : Fin 4) (coefficients : ℕ → CoeffVal) : CutChain :=
  match i with
  | ⟨0, _⟩ => { c with s0 := { c.s0 with
      coefficients := updateCoefficientsVal c.s0.coefficients (coefficients 0),
      bypassed := false } }
  | ⟨1, _⟩ => { c with s1 := { c.s1 with
      coefficients := updateCoefficientsVal c.s1.coefficients (coefficients 1),
      bypassed := false } }
  | ⟨2, _⟩ => { c with s2 := { c.s2 with
      coefficients := updateCoefficientsVal c.s2.coefficients (coefficients 2),
      bypassed := false } }
  | ⟨3, _⟩ => { c with s3 := { c.s3 with
      coefficients := updateCoefficientsVal c.s3.coefficients (coefficients 3),
      bypassed := false } }

/-- `updateCutFilter(cut, cutCoefficients, slope)` (PluginProcessor.h
lines 242-267): bypass all four sections, then — via the fall-through
`switch` — assign coefficient set `i` to section `i` and clear its
bypass for every `i` from `slope` down to 0. -/
def updateCutFilter (cut : CutChain) (cutCoefficients : ℕ → CoeffVal) (slope : Slope) :
    CutChain :=
  let c := (((cut.setBypassed 0 true).setBypassed 1 true).setBypassed 2 true).setBypassed 3 true
  match slope with
  | .Slope_48 =>
      (((c.updateSec 3 cutCoefficients).updateSec 2 cutCoefficients).updateSec 1
        cutCoefficients).updateSec 0 cutCoefficients
  | .Slope_36 =>
      ((c.updateSec 2 cutCoefficients).updateSec 1 cutCoefficients).updateSec 0 cutCoefficients
  | .Slope_24 =>
      (c.updateSec 1 cutCoefficients).updateSec 0 cutCoefficients
  | .Slope_12 =>
      c.updateSec 0 cutCoefficients

/-- Number of non-bypassed sections of a cut sub-chain. -/
def CutChain.activeCount (c : CutChain) : ℕ :=
  (if c.s0.bypassed then 0 else 1) + (if c.s1.bypassed then 0 else 1)
    + (if c.s2.bypassed then 0 else 1) + (if c.s3.bypassed then 0 else 1)

/-- The whole per-channel chain `{low cut, peak, high cut}`. -/
structure MonoChain where
  lowCut : CutChain
  peak : FilterSection
  highCut : CutChain
deriving DecidableEq

/-- Threading the per-sample step through a block of samples
(state-passing map). -/
def mapAccum (g : (ℚ × ℚ) → ℚ → ℚ × (ℚ × ℚ)) : (ℚ × ℚ) → List ℚ → List ℚ × (ℚ × ℚ)
  | st, [] => ([], st)
  | st, x :: xs =>
      let r := g st x
      let rest := mapAccum g r.2 xs
      (r.1 :: rest.1, rest.2)

/-- One chain slot processing a block in place: a bypassed slot is a
complete no-op; an active slot runs the biquad step over every sample,
updating its internal state. -/
def FilterSection.processBlock (step : SectionStep) (s : FilterSection)
    (samples : List ℚ) : List ℚ × FilterSection :=
  if s.bypassed then (samples, s)
  else
    let r := mapAccum (step s.coefficients) s.state samples
    (r.1, { s with state := r.2 })

/-- A cut sub-chain processes the block through its four sections in
cascade order. -/
def CutChain.processBlock (step : SectionStep) (c : CutChain) (samples : List ℚ) :
    List ℚ × CutChain :=
  let r0 := c.s0.processBlock step samples
  let r1 := c.s1.processBlock step r0.1
  let r2 := c.s2.processBlock step r1.1
  let r3 := c.s3.processBlock step r2.1
  (r3.1, ⟨r0.2, r1.2, r2.2, r3.2⟩)

/-- The whole mono chain processes the block: low cut, then peak, then
high cut, in place. -/
def MonoChain.processBlock (step : SectionStep) (c : MonoChain) (samples : List ℚ) :
    List ℚ × MonoChain :=
  let rl := c.lowCut.processBlock step samples
  let rp := c.peak.processBlock step rl.1
  let rh := c.highCut.processBlock step rp.1
  (rh.1, ⟨rl.2, rp.2, rh.2⟩)

/-! ## The processor (PluginProcessor.cpp lines 99-212) -/

/-- The DSP state of `EqualizadorAudioProcessor`: the current parameter
snapshot (what `getChainSettings(apvts)` reads), the prepared sample
rate, and the two channel chains. -/
structure Engine where
  settings : ChainSettings
  sampleRate : ℚ
  leftChannelChain : MonoChain
  rightChannelChain : MonoChain
deriving DecidableEq

/-- `getChainSettings(apvts)`: the snapshot of the current parameter
values. -/
def getChainSettings (e : Engine) : ChainSettings := e.settings

/-- `updateLowCutFilters(chainSettings)`. -/
def Engine.updateLowCutFilters (e : Engine) (chainSettings : ChainSettings) : Engine :=
  let lowCutCoefficients := makeLowCutFilter chainSettings e.sampleRate
  { e with
    leftChannelChain := { e.leftChannelChain with
      lowCut := updateCutFilter e.leftChannelChain.lowCut lowCutCoefficients
        chainSettings.lowCutSlope },
    rightChannelChain := { e.rightChannelChain with
      lowCut := updateCutFilter e.rightChannelChain.lowCut lowCutCoefficients
        chainSettings.lowCutSlope } }

/-- `updateHighCutFilters(chainSettings)`. -/
def Engine.updateHighCutFilters (e : Engine) (chainSettings : ChainSettings) : Engine :=
  let highCutCoefficients := makeHighCutFilter chainSettings e.sampleRate
  { e with
    leftChannelChain := { e.leftChannelChain with
      highCut := updateCutFilter e.leftChannelChain.highCut highCutCoefficients
        chainSettings.highCutSlope },
    rightChannelChain := { e.rightChannelChain with
      highCut := updateCutFilter e.rightChannelChain.highCut highCutCoefficients
        chainSettings.highCutSlope } }

/-- `updatePeakFilter(chainSettings)`: replace the peak coefficients of
both chains wholesale with the freshly designed set. -/
def Engine.updatePeakFilter (e : Engine) (chainSettings : ChainSettings) : Engine :=
  let peakCoefficients := makePeakFilter chainSettings e.sampleRate
  { e with
    leftChannelChain := { e.leftChannelChain with
      peak := { e.leftChannelChain.peak with
        coefficients := updateCoefficientsVal e.leftChannelChain.peak.coefficients
          peakCoefficients } },
    rightChannelChain := { e.rightChannelChain with
      peak := { e.rightChannelChain.peak with
        coefficients := updateCoefficientsVal e.rightChannelChain.peak.coefficients
          peakCoefficients } } }

/-- `updateFilters()` (PluginProcessor.cpp lines 121-128): read the
current settings, then refresh low cut, peak and high cut of both
chains. -/
def Engine.updateFilters (e : Engine) : Engine :=
  let chainSettings := getChainSettings e
  ((e.updateLowCutFilters chainSettings).updatePeakFilter
    chainSettings).updateHighCutFilters chainSettings

/-- The clearing loop of `processBlock`:
`for i in [totalNumInputChannels, totalNumOutputChannels) buffer.clear(i)`. -/
def clearFrom (numIn numOut : ℕ) : ℕ → List (List ℚ) → List (List ℚ)
  | _, [] => []
  | i, c :: rest =>
      (if numIn ≤ i ∧ i < numOut then List.replicate c.length 0 else c)
        :: clearFrom numIn numOut (i + 1) rest

/-- `processBlock(buffer, midi)` (PluginProcessor.cpp lines 189-212):
clear output channels beyond the inputs, recompute all filters from the
current parameters, then split the buffer into the single-channel blocks
0 and 1 and run each through its own chain in place.  Accessing channel
1 of a buffer that does not have it (`getSingleChannelBlock(1)`) is out
of range — undefined behaviour, modelled as `none`; the coefficient
update has happened by then either way. -/
def Engine.processBlock (step : SectionStep) (numIn numOut : ℕ) (e : Engine)
    (buffer : AudioBuffer ℚ) : Option (AudioBuffer ℚ) × Engine :=
  let cleared : List (List ℚ) := clearFrom numIn numOut 0 buffer.channels
  let e1 := e.updateFilters
  match cleared.get? 0, cleared.get? 1 with
  | some leftBlock, some rightBlock =>
      let lr := e1.leftChannelChain.processBlock step leftBlock
      let rr := e1.rightChannelChain.processBlock step rightBlock
      (some ⟨(cleared.set 0 lr.1).set 1 rr.1⟩,
        { e1 with leftChannelChain := lr.2, rightChannelChain := rr.2 })
  | _, _ => (none, e1)

/-- The JUCE main-bus channel sets this processor distinguishes in
`isBusesLayoutSupported`. -/
inductive AudioChannelSet
  | mono
  | stereo
  | other
deriving DecidableEq

/-- `isBusesLayoutSupported(layouts)` (PluginProcessor.cpp lines
163-187): reject a main output set that is neither mono nor stereo;
reject mismatched main input and output sets; accept the rest. -/
def isBusesLayoutSupported (mainIn mainOut : AudioChannelSet) : Bool :=
  if mainOut ≠ AudioChannelSet.mono ∧ mainOut ≠ AudioChannelSet.stereo then false
  else if mainOut ≠ mainIn then false
  else true

/-- The observable coefficient assignment of one chain slot: its bypass
flag, and its coefficient set when active. -/
def FilterSection.activeCoeff (s : FilterSection) : Bool × Option CoeffVal :=
  (s.bypassed, if s.bypassed then none else some s.coefficients)

/-- The observable coefficient assignment of a cut sub-chain. -/
def CutChain.coeffView (c : CutChain) : Fin 4 → Bool × Option CoeffVal :=
  fun i => (c.get i).activeCoeff

/-- The observable coefficient assignment of a whole mono chain: its two
cut views and the peak section's coefficient set (the peak slot's bypass
flag is never touched by the program). -/
def MonoChain.coeffView (c : MonoChain) :
    (Fin 4 → Bool × Option CoeffVal) × CoeffVal × (Fin 4 → Bool × Option CoeffVal) :=
  (c.lowCut.coeffView, c.peak.coefficients, c.highCut.coeffView)

/-- The coefficient assignment dictated by a parameter snapshot alone:
cut section `i` active with design set `i` exactly when `i ≤ slope`, and
the peak design from the snapshot. -/
def canonicalCutView (cutCoefficients : ℕ → CoeffVal) (slope : Slope) :
    Fin 4 → Bool × Option CoeffVal :=
  fun i => if i.val ≤ slope.ord then (false, some (cutCoefficients i.val)) else (true, none)

/-- The full chain view dictated by a parameter snapshot and sample rate. -/
def canonicalView (chainSettings : ChainSettings) (sampleRate : ℚ) :
    (Fin 4 → Bool × Option CoeffVal) × CoeffVal × (Fin 4 → Bool × Option CoeffVal) :=
  (canonicalCutView (makeLowCutFilter chainSettings sampleRate) chainSettings.lowCutSlope,
    makePeakFilter chainSettings sampleRate,
    canonicalCutView (makeHighCutFilter chainSettings sampleRate) chainSettings.highCutSlope)

/-- A default-constructed chain slot: default coefficients, not
bypassed, zeroed difference-equation state. -/
def defaultFilterSection : FilterSection := ⟨.base, false, (0, 0)⟩

/-- A default-constructed mono chain. -/
def defaultMonoChain : MonoChain :=
  ⟨⟨defaultFilterSection, defaultFilterSection, defaultFilterSection, defaultFilterSection⟩,
    defaultFilterSection,
    ⟨defaultFilterSection, defaultFilterSection, defaultFilterSection, defaultFilterSection⟩⟩

/-- A freshly constructed engine prepared at 44100 Hz with default
parameters. -/
def defaultEngine : Engine :=
  ⟨defaultChainSettings, 44100, defaultMonoChain, defaultMonoChain⟩

/-- A concrete biquad step used to instantiate the uninterpreted
per-sample step in witnesses. -/
def zeroStep : SectionStep := fun _ st _ => (0, st)

/-! ## The analyzer's float domain (PluginEditor.h)

The FFT/normalisation/path stages care about NaN and infinity handling,
so their samples are embedded as finite rationals plus the three
non-finite IEEE values.  Arithmetic that produces a non-finite IEEE
result is modelled as `nan`: the program under verification only ever
tests `std::isnan(v) || std::isinf(v)`, so which non-finite value arises
is unobservable to it. -/

/-- An IEEE float as seen by the analyzer pipeline. -/
inductive FVal
  | fin (q : ℚ)
  | nan
  | inf
  | ninf
deriving DecidableEq

/-- `std::isnan`. -/
def FVal.isNan : FVal → Bool
  | .nan => true
  | _ => false

/-- `std::isinf`. -/
def FVal.isInf : FVal → Bool
  | .inf => true
  | .ninf => true
  | _ => false

/-- `std::isnan(v) || std::isinf(v)`. -/
def FVal.isNonFinite (v : FVal) : Bool := v.isNan || v.isInf

/-- `v /= float(n)`.  Division of a finite float by zero yields a
non-finite IEEE value; non-finite numerators stay non-finite. -/
def FVal.divNat : FVal → ℕ → FVal
  | .fin q, n => if n = 0 then .nan else .fin (q / (n : ℚ))
  | _, _ => .nan

/-- `v * w` for a float `v` and finite `w`. -/
def FVal.mulQ : FVal → ℚ → FVal
  | .fin q, w => .fin (q * w)
  | _, _ => .nan

/-- `juce::Decibels::gainToDecibels(gain, minusInfinityDb)`:
`gain > 0 ? jmax(minusInfinityDb, log10(gain) * 20) : minusInfinityDb`.
`log10` is the uninterpreted idealisation of `std::log10` on positive
finite arguments (always finite there).  A NaN gain compares false, so
it also yields the floor; a `+inf` gain yields `+inf`. -/
def gainToDecibels (log10 : ℚ → ℚ) (minusInfinityDb : ℚ) : FVal → FVal
  | .fin g => if 0 < g then .fin (max minusInfinityDb (20 * log10 g))
              else .fin minusInfinityDb
  | .inf => .inf
  | .ninf => .fin minusInfinityDb
  | .nan => .fin minusInfinityDb

/-- Index-aware map (the `for (i = 0; i < numBins; ++i)` loops write
`fftData[i]` in place, leaving the rest of the vector untouched). -/
def mapWithIndex (f : ℕ → FVal → FVal) : ℕ → List FVal → List FVal
  | _, [] => []
  | i, v :: rest => f i v :: mapWithIndex f (i + 1) rest

/-- The scrub-and-normalise loop of `produceFFTDataForRendering`
(PluginEditor.h lines 54-67): each bin `i < numBins` that is finite is
divided by `numBins`; a non-finite bin is replaced by 0; entries beyond
`numBins` are untouched. -/
def normalizeBins (numBins : ℕ) (data : List FVal) : List FVal :=
  mapWithIndex
    (fun i v =>
      if i < numBins then
        (if ¬v.isInf ∧ ¬v.isNan then v.divNat numBins else .fin 0)
      else v)
    0 data

/-- The dB-conversion loop of `produceFFTDataForRendering`
(PluginEditor.h lines 69-73). -/
def decibelBins (log10 : ℚ → ℚ) (negativeInfinity : ℚ) (numBins : ℕ)
    (data : List FVal) : List FVal :=
  mapWithIndex
    (fun i v => if i < numBins then gainToDecibels log10 negativeInfinity v else v)
    0 data

/-- `FFTDataGenerator::produceFFTDataForRendering` after the window and
the magnitude-only FFT (both external JUCE transforms; `fftData` is the
arbitrary float vector they leave behind): with `numBins = fftSize / 2`,
scrub-and-normalise then convert to decibels, and this is the vector
pushed into `fftDataFifo`. -/
def produceFFTDataForRendering (log10 : ℚ → ℚ) (fftData : List FVal)
    (negativeInfinity : ℚ) (fftSize : ℕ) : List FVal :=
  decibelBins log10 negativeInfinity (fftSize / 2) (normalizeBins (fftSize / 2) fftData)

/-! ## AnalyzerPathGenerator (PluginEditor.h lines 136-203) -/

/-- `juce::jmap(v, sourceRangeMin, sourceRangeMax, targetRangeMin,
targetRangeMax)`: the unclamped linear map `targetRangeMin +
(targetRangeMax - targetRangeMin) * (v - sourceRangeMin) /
(sourceRangeMax - sourceRangeMin)`.  An empty source range divides by
zero, and non-finite inputs propagate — both give a non-finite IEEE
result, modelled as `nan`. -/
def jmap (v : FVal) (sourceRangeMin sourceRangeMax targetRangeMin targetRangeMax : ℚ) :
    FVal :=
  match v with
  | .fin q =>
      if sourceRangeMax - sourceRangeMin = 0 then .nan
      else .fin (targetRangeMin + (targetRangeMax - targetRangeMin) * (q - sourceRangeMin)
        / (sourceRangeMax - sourceRangeMin))
  | _ => .nan

/-- `juce::mapFromLog10(v, logRangeMin, logRangeMax)`:
`(log10(v) - log10(logRangeMin)) / (log10(logRangeMax) -
log10(logRangeMin))`.  `std::log10` of a non-positive argument is
non-finite (modelled `nan`), as is a division by a zero log range; the
range bounds at the call site are the positive constants 20 and 20000. -/
def mapFromLog10 (log10 : ℚ → ℚ) (valueInLogRange logRangeMin logRangeMax : ℚ) : FVal :=
  if 0 < valueInLogRange then
    (if log10 logRangeMax - log10 logRangeMin = 0 then .nan
     else .fin ((log10 valueInLogRange - log10 logRangeMin)
       / (log10 logRangeMax - log10 logRangeMin)))
  else .nan

/-- One point of a `juce::Path` built by the analyzer. -/
structure PathPoint where
  x : FVal
  y : FVal
deriving DecidableEq

/-- The `map` lambda of `generatePath`: `jmap(v, negativeInfinity, 0,
bottom + 10, top)` — `bottom` is `fftBounds.getHeight()`, `top` is
`fftBounds.getY()`. -/
def analyzerMapY (negativeInfinity top bottomH : ℚ) (v : FVal) : FVal :=
  jmap v negativeInfinity 0 (bottomH + 10) top

/-- `int binX = std::floor(normalizedBinX * width)`.  Casting a
non-finite float to int is undefined behaviour in C++; the value 0
stands in for it and is never reached under positive `binFreq` and a
non-degenerate log range. -/
def floorToInt : FVal → ℤ
  | .fin q => ⌊q⌋
  | _ => 0

/-- The loop body of `generatePath` for one sampled bin: map the bin's
dB value to `y`; skip the point if `y` is non-finite, otherwise place it
at the log-frequency `x` of `binNum * binWidth` over 20 Hz..20000 Hz,
floored to an integer pixel column. -/
def analyzerPoint (log10 : ℚ → ℚ) (renderData : List FVal)
    (negativeInfinity top bottomH width binWidth : ℚ) (binNum : ℕ) : Option PathPoint :=
  let y := analyzerMapY negativeInfinity top bottomH (renderData.getD binNum .nan)
  if y.isNonFinite then none
  else
    some ⟨.fin ((floorToInt ((mapFromLog10 log10 ((binNum : ℚ) * binWidth) 20 20000).mulQ
      width) : ℤ) : ℚ), y⟩

/-- `AnalyzerPathGenerator::generatePath(renderData, fftBounds, fftSize,
binWidth, negativeInfinity)`: start the sub-path at `x = 0` with the
mapped value of bin 0 — replaced by `bottom` when non-finite — then
`lineTo` one point for every second bin (`pathResolution = 2`, bins 1,
3, 5, … below `numBins = fftSize / 2`), skipping bins whose mapped `y`
is non-finite.  Reading `renderData[0]` or `renderData[binNum]` out of
range is undefined behaviour, modelled as `none`.  The result is the
path pushed into `pathFifo`. -/
def generatePath (log10 : ℚ → ℚ) (renderData : List FVal)
    (top bottomH width : ℚ) (fftSize : ℕ) (binWidth : ℚ) (negativeInfinity : ℚ) :
    Option (List PathPoint) :=
  if 0 < renderData.length ∧ fftSize / 2 ≤ renderData.length then
    let y0 := analyzerMapY negativeInfinity top bottomH (renderData.getD 0 .nan)
    let y0' := if y0.isNonFinite then .fin bottomH else y0
    some (⟨.fin 0, y0'⟩ ::
      (List.range' 1 (fftSize / 2 / 2) 2).filterMap
        (analyzerPoint log10 renderData negativeInfinity top bottomH width binWidth))
  else none

end Equalizador

namespace Equalizador

theorem writeList_length {α : Type} (xs : List α) :
    ∀ (bufs : List α) (i : ℕ), (writeList bufs i xs).length = bufs.length := by
  induction xs with
  | nil => intro bufs i; rfl
  | cons x xs ih =>
      intro bufs i
      simp [writeList, ih]

theorem writeList_get?_lt {α : Type} (xs : List α) :
    ∀ (bufs : List α) (i j : ℕ), j < i → (writeList bufs i xs).get? j = bufs.get? j := by
  induction xs with
  | nil => intro bufs i j _; rfl
  | cons x xs ih =>
      intro bufs i j hj
      rw [writeList, ih _ _ _ (Nat.lt_succ_of_lt hj),
        List.get?_set_ne _ _ (Nat.ne_of_gt hj)]

theorem writeList_snoc {α : Type} (xs : List α) :
    ∀ (bufs : List α) (i : ℕ) (y : α),
      writeList bufs i (xs ++ [y]) = (writeList bufs i xs).set (i + xs.length) y := by
  induction xs with
  | nil => intro bufs i y; simp [writeList]
  | cons x xs ih =>
      intro bufs i y
      have h : i + 1 + xs.length = i + (xs.length + 1) := by omega
      simp only [List.cons_append, writeList, List.append_eq, ih, List.length_cons, h]

theorem writeList_map_get? {α : Type} (xs : List α) :
    ∀ (bufs : List α) (j : ℕ), j + xs.length ≤ bufs.length →
      (List.range' j xs.length).map (fun i => (writeList bufs j xs).get? i) = xs.map some := by
  induction xs with
  | nil => intro bufs j _; rfl
  | cons x xs ih =>
      intro bufs j hlen
      have hrange : List.range' j (xs.length + 1) = j :: List.range' (j + 1) xs.length :=
        List.range'_succ j xs.length 1
      simp only [List.length_cons, hrange, List.map_cons, writeList]
      congr 1
      · rw [writeList_get?_lt _ _ _ _ (Nat.lt_succ_self j), List.get?_set_eq]
        have hj : j < bufs.length := by simp at hlen; omega
        simp [List.get?_eq_getElem?, List.getElem?_eq_getElem hj]
      · exact ih (bufs.set j x) (j + 1) (by simp at hlen ⊢; omega)

namespace Fifo

/-- A push into a fifo whose read cursor sits at 0 and whose write cursor is
`k ≤ 28` succeeds, writes slot `k` and advances the write cursor. -/
theorem push_step {α : Type} (bufs : List α) (k : ℕ) (x : α) (hk : k ≤ 28) :
    Fifo.push ⟨bufs, 0, k⟩ x = (true, ⟨bufs.set k x, 0, k + 1⟩) := by
  have hfree : (Fifo.freeSpace ⟨bufs, 0, k⟩) = 30 - k := by
    simp [Fifo.freeSpace, capacity]
  simp only [Fifo.push, hfree, capacity]
  have h1 : (1 : ℕ) ⊓ (30 - k - 1) = 1 := by omega
  have h2 : (30 - k) ⊓ (1 : ℕ) = 1 := by omega
  simp only [h1, h2]
  norm_num
  omega

/-- A pull from a fifo with cursors `j < n ≤ 29` returns slot `j` and
advances the read cursor. -/
theorem pull_step {α : Type} (bufs : List α) (j n : ℕ) (hj : j < n) (hn : n ≤ 29) :
    Fifo.pull ⟨bufs, j, n⟩ = (bufs.get? j, ⟨bufs, j + 1, n⟩) := by
  have hready : (Fifo.numReady ⟨bufs, j, n⟩) = n - j := by
    simp only [Fifo.numReady, capacity]
    rw [if_pos (by omega : j ≤ n)]
  simp only [Fifo.pull, hready, capacity]
  have h1 : (1 : ℕ) ⊓ (n - j) = 1 := by omega
  have h2 : (30 - j) ⊓ (1 : ℕ) = 1 := by omega
  simp only [h1, h2]
  norm_num
  omega

/-- Pushing a run of `xs` into a fifo whose cursors are `(0, k)` with
enough room: every push succeeds, the elements land in consecutive
slots `k, k+1, …` and the write cursor advances by `xs.length`. -/
theorem pushAll_spec {α : Type} (xs : List α) :
    ∀ (bufs : List α) (k : ℕ), k + xs.length ≤ 29 →
      Fifo.pushAll ⟨bufs, 0, k⟩ xs =
        (List.replicate xs.length true, ⟨writeList bufs k xs, 0, k + xs.length⟩) := by
  induction xs with
  | nil => intro bufs k _; simp [Fifo.pushAll, writeList]
  | cons x xs ih =>
      intro bufs k hk
      have hk' : k ≤ 28 := by simp at hk; omega
      rw [Fifo.pushAll, push_step bufs k x hk']
      have := ih (bufs.set k x) (k + 1) (by simp at hk ⊢; omega)
      simp only [this, writeList, List.length_cons, List.replicate_succ]
      have h : k + 1 + xs.length = k + (xs.length + 1) := by omega
      rw [h]

/-- Pulling `m` times from a fifo with cursors `(j, n)`, `j + m ≤ n ≤ 29`:
the slots `j, …, j+m-1` come out in order and the read cursor advances. -/
theorem pullN_spec {α : Type} (m : ℕ) :
    ∀ (bufs : List α) (j n : ℕ), j + m ≤ n → n ≤ 29 →
      Fifo.pullN ⟨bufs, j, n⟩ m =
        ((List.range' j m).map (fun i => bufs.get? i), ⟨bufs, j + m, n⟩) := by
  induction m with
  | zero => intro bufs j n _ _; simp [Fifo.pullN]
  | succ m ih =>
      intro bufs j n hm hn
      rw [Fifo.pullN, pull_step bufs j n (by omega) hn]
      have := ih bufs (j + 1) n (by omega) hn
      simp only [this, List.range'_succ, List.map_cons]
      have h : j + 1 + m = j + (m + 1) := by omega
      rw [h]

/-- A push when 29 elements are stored fails and leaves the whole fifo
(slots and both cursors) unchanged. -/
theorem push_full {α : Type} (f : Fifo α) (x : α) (hInv : f.Inv)
    (hfull : f.numReady = 29) : f.push x = (false, f) := by
  obtain ⟨hlen, hvs, hve⟩ := hInv
  simp only [Fifo.numReady, capacity] at hfull hvs hve
  have hfree : f.freeSpace = 1 := by
    simp only [Fifo.freeSpace, capacity]
    split_ifs at hfull ⊢ <;> omega
  cases f with
  | mk b vs ve =>
    simp only at hvs hve
    simp only [Fifo.push, hfree, capacity]
    norm_num
    omega

/-- A pull from an empty fifo fails and leaves it unchanged. -/
theorem pull_empty {α : Type} (f : Fifo α) (hInv : f.Inv)
    (hempty : f.numReady = 0) : f.pull = (none, f) := by
  obtain ⟨hlen, hvs, hve⟩ := hInv
  cases f with
  | mk b vs ve =>
    simp only [Fifo.numReady, capacity] at hempty hvs hve
    simp only [Fifo.pull, Fifo.numReady, capacity, hempty]
    norm_num
    omega

end Fifo

set_option maxRecDepth 4000 in
/-- C4 counterexample: pushing the 30 elements `0,…,29` into an empty
`Fifo` and pulling 30 times does not return them: `juce::AbstractFifo`
always keeps one slot reserved (`numToWrite = min n (freeSpace - 1)` in
`prepareToWrite`), so the 30th push fails and the 30th pull returns
nothing.  This refutes the claim's round-trip property at `N = 30`. -/
theorem fifo_capacity_30_counterexample :
    ¬ ((Fifo.pullN (Fifo.pushAll (Fifo.prepare (0 : ℕ)) (List.range 30)).2 30).1
        = (List.range 30).map some) := by decide

/-- C4 (amended): pushing `N ≤ 29` elements into an empty `Fifo` succeeds
(`true` every time) and pulling `N` times returns exactly those elements
in FIFO order; a push onto a fifo already holding 29 elements (the
effective capacity, since `juce::AbstractFifo` reserves one of the 30
slots) returns `false` and leaves the slots and both cursors unchanged;
a pull from an empty fifo returns nothing and leaves it unchanged. -/
theorem fifo_roundtrip_bounded_capacity {α : Type} (init x : α) (xs : List α)
    (f29 fe : Fifo α) (h29 : xs.length ≤ 29)
    (hInv29 : f29.Inv) (hfull : f29.numReady = 29)
    (hInve : fe.Inv) (hempty : fe.numReady = 0) :
    (Fifo.pushAll (Fifo.prepare init) xs).1 = List.replicate xs.length true
    ∧ (Fifo.pullN (Fifo.pushAll (Fifo.prepare init) xs).2 xs.length).1 = xs.map some
    ∧ f29.push x = (false, f29)
    ∧ fe.pull = (none, fe) := by
  have hp := Fifo.pushAll_spec xs (List.replicate Fifo.capacity init) 0 (by omega)
  rw [Nat.zero_add] at hp
  refine ⟨?_, ?_, Fifo.push_full f29 x hInv29 hfull, Fifo.pull_empty fe hInve hempty⟩
  · rw [Fifo.prepare, hp]
  · rw [Fifo.prepare, hp]
    rcases Nat.eq_zero_or_pos xs.length with hz | hpos
    · rw [List.eq_nil_of_length_eq_zero hz]
      rfl
    · rw [Fifo.pullN_spec xs.length (writeList (List.replicate Fifo.capacity init) 0 xs)
        0 xs.length (by omega) h29]
      exact writeList_map_get? xs (List.replicate Fifo.capacity init) 0
        (by simp [Fifo.capacity]; omega)

theorem writeList_get?_in {α : Type} (xs : List α) :
    ∀ (bufs : List α) (i j : ℕ), i ≤ j → j < i + xs.length →
      i + xs.length ≤ bufs.length → (writeList bufs i xs).get? j = xs.get? (j - i) := by
  induction xs with
  | nil => intro bufs i j h1 h2 _; simp at h2; omega
  | cons x xs ih =>
      intro bufs i j h1 h2 hlen
      rw [writeList]
      rcases Nat.eq_or_lt_of_le h1 with heq | hlt
      · subst heq
        rw [writeList_get?_lt _ _ _ _ (Nat.lt_succ_self i), List.get?_set_eq,
          Nat.sub_self]
        have hi : i < bufs.length := by simp at hlen; omega
        simp [List.get?_eq_getElem?, List.getElem?_eq_getElem hi]
      · rw [ih (bufs.set i x) (i + 1) j hlt (by simp at h2 ⊢; omega)
          (by simp at hlen ⊢; omega)]
        have h3 : j - i = (j - (i + 1)) + 1 := by omega
        rw [h3]
        rfl

namespace SingleChannelSampleFifo

/-- Feeding samples that fit into the remaining space of the accumulation
buffer stores them consecutively and only advances `fifoIndex`; the block
fifo is untouched. -/
theorem deliver_fill {α : Type} (ys : List α) :
    ∀ s : SingleChannelSampleFifo α, s.fifoIndex + ys.length ≤ s.bufferToFill.length →
      s.deliver ys =
        { s with bufferToFill := writeList s.bufferToFill s.fifoIndex ys,
                 fifoIndex := s.fifoIndex + ys.length } := by
  induction ys with
  | nil =>
      intro s _
      cases s
      simp [deliver, writeList]
  | cons y ys ih =>
      intro s hlen
      have hne : s.fifoIndex ≠ s.bufferToFill.length := by simp at hlen; omega
      have hstep : s.pushNextSampleIntoFifo y =
          { s with bufferToFill := s.bufferToFill.set s.fifoIndex y,
                   fifoIndex := s.fifoIndex + 1 } := by
        rw [pushNextSampleIntoFifo]
        simp [if_neg hne]
      rw [deliver, List.foldl_cons, hstep]
      have := ih { s with bufferToFill := s.bufferToFill.set s.fifoIndex y,
                          fifoIndex := s.fifoIndex + 1 }
        (by simp at hlen ⊢; omega)
      rw [deliver] at this
      rw [this]
      simp only [writeList, List.length_cons]
      have h : s.fifoIndex + 1 + ys.length = s.fifoIndex + (ys.length + 1) := by omega
      rw [h]

end SingleChannelSampleFifo

/-- Witness for `fifo_roundtrip_bounded_capacity` at concrete inputs. -/
theorem fifo_roundtrip_bounded_capacity_witness :
    (([10, 20, 30] : List ℕ).length ≤ 29
      ∧ (⟨List.replicate 30 0, 0, 29⟩ : Fifo ℕ).Inv
      ∧ (⟨List.replicate 30 0, 0, 29⟩ : Fifo ℕ).numReady = 29
      ∧ (Fifo.prepare (0 : ℕ)).Inv
      ∧ (Fifo.prepare (0 : ℕ)).numReady = 0)
    ∧ ((Fifo.pushAll (Fifo.prepare (0 : ℕ)) [10, 20, 30]).1 = List.replicate 3 true
      ∧ (Fifo.pullN (Fifo.pushAll (Fifo.prepare (0 : ℕ)) [10, 20, 30]).2 3).1
          = [10, 20, 30].map some
      ∧ (⟨List.replicate 30 0, 0, 29⟩ : Fifo ℕ).push 7 = (false, ⟨List.replicate 30 0, 0, 29⟩)
      ∧ (Fifo.prepare (0 : ℕ)).pull = (none, Fifo.prepare (0 : ℕ))) :=
  ⟨⟨by decide, by decide, by decide, by decide, by decide⟩,
    fifo_roundtrip_bounded_capacity 0 7 [10, 20, 30] _ _
      (by decide) (by decide) (by decide) (by decide) (by decide)⟩

namespace SingleChannelSampleFifo

/-- Feeding one sample while the accumulation buffer is full first pushes
the buffer into the block fifo, then restarts accumulation at offset 0. -/
theorem pushNextSample_boundary {α : Type} (s : SingleChannelSampleFifo α) (x : α)
    (h : s.fifoIndex = s.bufferToFill.length) :
    s.pushNextSampleIntoFifo x =
      { s with audioBufferFifo := (s.audioBufferFifo.push s.bufferToFill).2,
               bufferToFill := s.bufferToFill.set 0 x,
               fifoIndex := 1 } := by
  rw [pushNextSampleIntoFifo]
  simp [if_pos h]

end SingleChannelSampleFifo

theorem chunk_get? {α : Type} (xs : List α) (B i j : ℕ) (hj : j < B) :
    (chunk xs B i).get? j = xs.get? (i * B + j) := by
  rw [chunk, List.get?_take hj, List.get?_drop]

theorem chunk_length {α : Type} (xs : List α) (B i : ℕ)
    (h : i * B + B ≤ xs.length) : (chunk xs B i).length = B := by
  rw [chunk]
  simp
  omega

/-- After accumulating the sample at offset 0 and then the next `B - 1`
stream samples at offsets `1, …, B-1`, the accumulation buffer holds
exactly the `k`-th analysis block of the stream. -/
theorem fullBuffer_eq_chunk {α : Type} (xs : List α) (B k : ℕ) (z : α) (buf : List α)
    (hB : 1 ≤ B) (hlenB : buf.length = B)
    (h0 : buf.get? 0 = some (xs.getD (k * B) z))
    (hbound : (k + 1) * B ≤ xs.length) :
    writeList buf 1 ((xs.drop (k * B + 1)).take (B - 1)) = chunk xs B k := by
  have hdist : (k + 1) * B = k * B + B := by ring
  have hmidlen : ((xs.drop (k * B + 1)).take (B - 1)).length = B - 1 := by
    simp
    omega
  apply List.ext_get?
  intro n
  rcases Nat.lt_or_ge n B with hn | hn
  · rcases Nat.eq_zero_or_pos n with hz | hpos
    · subst hz
      rw [writeList_get?_lt _ _ _ _ (by omega : 0 < 1), h0,
        chunk_get? xs B k 0 (by omega), Nat.add_zero, List.getD_eq_get?]
      have hk : k * B < xs.length := by omega
      rw [List.get?_eq_getElem?, List.getElem?_eq_getElem hk]
      rfl
    · rw [writeList_get?_in _ _ _ _ (by omega) (by omega : n < 1 + ((xs.drop (k * B + 1)).take (B - 1)).length)
        (by omega), List.get?_take (by omega : n - 1 < B - 1), List.get?_drop,
        chunk_get? xs B k n hn]
      congr 1
      omega
  · have h1 : (writeList buf 1 ((xs.drop (k * B + 1)).take (B - 1))).length ≤ n := by
      rw [writeList_length, hlenB]; omega
    have h2 : (chunk xs B k).length ≤ n := by
      rw [chunk_length xs B k (by omega)]; omega
    rw [List.get?_eq_none.mpr h1, List.get?_eq_none.mpr h2]

theorem take_one_drop {α : Type} (xs : List α) (z : α) (j : ℕ) (h : j < xs.length) :
    (xs.drop j).take 1 = [xs.getD j z] := by
  rw [List.drop_eq_getElem_cons h, List.take_cons_succ, List.take_zero,
    List.getD_eq_get?, List.get?_eq_getElem?, List.getElem?_eq_getElem h]
  rfl

namespace SingleChannelSampleFifo

/-- The state of a prepared collector after the first `k*B + 1` samples of
the stream `xs`: accumulation restarted `k` times, the block fifo holds
exactly the first `k` analysis blocks in its first `k` slots, and the
accumulation buffer holds the sample `xs[k*B]` at offset 0. -/
theorem deliver_take_spec {α : Type} (z : α) (ch : Channel) (B : ℕ) (xs : List α)
    (hB : 1 ≤ B) :
    ∀ k : ℕ, k ≤ 29 → k * B + 1 ≤ xs.length →
      (prepare ch B z).deliver (xs.take (k * B + 1)) =
        ⟨ch, 1,
          ⟨writeList (List.replicate Fifo.capacity (List.replicate B z)) 0 (chunkList xs B k),
            0, k⟩,
          (if k = 0 then List.replicate B z else chunk xs B (k - 1)).set 0 (xs.getD (k * B) z)⟩ := by
  intro k
  induction k with
  | zero =>
      intro _ hlen
      have h1 : xs.take 1 = [xs.getD 0 z] := by
        have := take_one_drop xs z 0 (by omega)
        simpa using this
      simp only [Nat.zero_mul, Nat.zero_add, h1]
      rw [deliver, List.foldl_cons, List.foldl_nil, pushNextSampleIntoFifo]
      have hne : (prepare ch B z).fifoIndex ≠ (prepare ch B z).bufferToFill.length := by
        simp [prepare]
        omega
      simp only [if_neg hne]
      rw [prepare, chunkList]
      simp [writeList, Fifo.prepare]
  | succ k ih =>
      intro hk hlen
      have hkB : k * B + 1 ≤ xs.length := by
        have : k * B + 1 ≤ (k + 1) * B + 1 := by
          have : k * B ≤ (k + 1) * B := Nat.mul_le_mul_right B (by omega)
          omega
        omega
      have hstate := ih (by omega) hkB
      -- split the first (k+1)*B + 1 samples as
      -- (first k*B + 1) ++ (next B - 1) ++ (one final sample)
      have hsplit : xs.take ((k + 1) * B + 1) =
          xs.take (k * B + 1) ++ (xs.drop (k * B + 1)).take (B - 1)
            ++ [xs.getD ((k + 1) * B) z] := by
        have h1 : (k + 1) * B + 1 = (k * B + 1) + (B - 1) + 1 := by
          have : (k + 1) * B = k * B + B := by ring
          omega
        rw [h1, List.take_add, List.take_add]
        have h2 : (xs.drop (k * B + 1 + (B - 1))).take 1 = [xs.getD ((k + 1) * B) z] := by
          have h3 : k * B + 1 + (B - 1) = (k + 1) * B := by
            have : (k + 1) * B = k * B + B := by ring
            omega
          rw [h3]
          exact take_one_drop xs z ((k + 1) * B) (by omega)
        rw [h2, List.append_assoc]
      rw [hsplit]
      rw [deliver, List.foldl_append, List.foldl_append]
      have hstate' := hstate
      rw [deliver] at hstate'
      rw [hstate']
      -- the middle B - 1 samples only fill offsets 1, …, B-1
      have hbuflen :
          ((if k = 0 then List.replicate B z else chunk xs B (k - 1)).set 0
            (xs.getD (k * B) z)).length = B := by
        rcases Nat.eq_zero_or_pos k with hz | hpos
        · simp [hz]
        · rw [List.length_set, if_neg (by omega)]
          apply chunk_length
          have hd2 : (k - 1) * B + B = k * B := by
            have hkk : k - 1 + 1 = k := by omega
            calc (k - 1) * B + B = ((k - 1) + 1) * B := by ring
            _ = k * B := by rw [hkk]
          omega
      have hfill := deliver_fill ((xs.drop (k * B + 1)).take (B - 1))
        ⟨ch, 1,
          ⟨writeList (List.replicate Fifo.capacity (List.replicate B z)) 0 (chunkList xs B k),
            0, k⟩,
          (if k = 0 then List.replicate B z else chunk xs B (k - 1)).set 0 (xs.getD (k * B) z)⟩
        (by
          simp only [hbuflen]
          simp
          omega)
      rw [deliver] at hfill
      rw [hfill]
      -- the final sample arrives while the buffer is full: push then restart
      have hfull : writeList
          ((if k = 0 then List.replicate B z else chunk xs B (k - 1)).set 0
            (xs.getD (k * B) z)) 1 ((xs.drop (k * B + 1)).take (B - 1)) = chunk xs B k := by
        apply fullBuffer_eq_chunk xs B k z _ hB hbuflen
        · rw [List.get?_set_eq]
          have : 0 < ((if k = 0 then List.replicate B z else chunk xs B (k - 1))).length := by
            rcases Nat.eq_zero_or_pos k with hz | hpos
            · simp [hz]; omega
            · rw [if_neg (by omega)]
              rw [chunk_length]
              · omega
              · have hkk : k - 1 + 1 = k := by omega
                have : (k - 1) * B + B = k * B := by
                  calc (k - 1) * B + B = ((k - 1) + 1) * B := by ring
                  _ = k * B := by rw [hkk]
                omega
          simp [List.get?_eq_getElem?, List.getElem?_eq_getElem this]
        · have : (k + 1) * B + 1 ≤ xs.length := hlen
          omega
      rw [List.foldl_cons, List.foldl_nil]
      have hchunklen : (chunk xs B k).length = B := by
        apply chunk_length
        have hdist : (k + 1) * B = k * B + B := by ring
        omega
      refine Eq.trans (pushNextSample_boundary _ _ ?_) ?_
      · simp only [hfull, hchunklen]
        simp
        have hdist : (k + 1) * B = k * B + B := by ring
        omega
      · simp only [hfull]
        have hpush := Fifo.push_step
          (writeList (List.replicate Fifo.capacity (List.replicate B z)) 0 (chunkList xs B k))
          k (chunk xs B k) (by omega)
        rw [hpush]
        have hsnoc : chunkList xs B (k + 1) = chunkList xs B k ++ [chunk xs B k] := by
          rw [chunkList, chunkList, List.range_succ, List.map_append]
          rfl
        have hwl : writeList (List.replicate Fifo.capacity (List.replicate B z)) 0
            (chunkList xs B (k + 1)) =
            (writeList (List.replicate Fifo.capacity (List.replicate B z)) 0
              (chunkList xs B k)).set k (chunk xs B k) := by
          rw [hsnoc, writeList_snoc]
          have hck : (chunkList xs B k).length = k := by
            rw [chunkList, List.length_map, List.length_range]
          rw [hck, Nat.zero_add]
        rw [← hwl]
        have hif : (if k + 1 = 0 then List.replicate B z else chunk xs B (k + 1 - 1)) =
            chunk xs B k := by
          rw [if_neg (by omega)]
          congr 1
        rw [hif]

end SingleChannelSampleFifo

/-- C5 counterexample: a collector prepared with block size `B = 2` that
has received exactly `1 * B = 2` samples has pushed no complete block
(the claim demands 1): `pushNextSampleIntoFifo` only pushes the filled
accumulation buffer when the next sample after it arrives, because the
fullness test precedes the write. -/
theorem scsf_push_at_fill_counterexample :
    ¬ (((SingleChannelSampleFifo.prepare Channel.Left 2 (0 : ℚ)).deliver
        [5, 7]).getNumCompleteBuffersAvailable = 1) := by decide

/-- C5 (amended): each sample of the designated channel is appended to the
accumulation buffer; when a sample arrives while the buffer already holds
`B` samples, the completed block is first pushed into the ring buffer and
accumulation restarts at offset 0 — so after exactly `k*B + 1` samples
(not `k*B`) the collector has pushed `k` complete blocks, and those
blocks are precisely the first `k` consecutive `B`-sample chunks of the
stream, in order. -/
theorem scsf_block_push_deferred {α : Type} (z : α) (ch : Channel) (B k : ℕ)
    (xs : List α) (buffer : AudioBuffer α)
    (hB : 1 ≤ B) (hk : k ≤ 29) (hlen : xs.length = k * B + 1)
    (hch : buffer.channels.get? ch.toIndex = some xs) :
    (SingleChannelSampleFifo.prepare ch B z).update buffer
      = some ((SingleChannelSampleFifo.prepare ch B z).deliver xs)
    ∧ ((SingleChannelSampleFifo.prepare ch B z).deliver xs).getNumCompleteBuffersAvailable = k
    ∧ (Fifo.pullN ((SingleChannelSampleFifo.prepare ch B z).deliver xs).audioBufferFifo k).1
        = (chunkList xs B k).map some := by
  have htake : xs.take (k * B + 1) = xs := by
    rw [← hlen]
    exact List.take_length xs
  have hmain := SingleChannelSampleFifo.deliver_take_spec z ch B xs hB k hk (by omega)
  rw [htake] at hmain
  have hck : (chunkList xs B k).length = k := by
    rw [chunkList, List.length_map, List.length_range]
  refine ⟨?_, ?_, ?_⟩
  · rw [SingleChannelSampleFifo.update]
    have : (SingleChannelSampleFifo.prepare ch B z).channelToUse = ch := rfl
    rw [this, hch]
  · rw [hmain]
    simp [SingleChannelSampleFifo.getNumCompleteBuffersAvailable,
      Fifo.getNumAvailableForReading, Fifo.numReady]
  · rw [hmain]
    have hp := Fifo.pullN_spec k
      (writeList (List.replicate Fifo.capacity (List.replicate B z)) 0 (chunkList xs B k))
      0 k (by omega) (by omega)
    simp only [hp]
    have := writeList_map_get? (chunkList xs B k)
      (List.replicate Fifo.capacity (List.replicate B z)) 0
      (by simp [Fifo.capacity]; omega)
    rw [hck] at this
    simpa using this

/-- Witness for `scsf_block_push_deferred` at `B = 2`, `k = 1`,
stream `[3, 4, 5]` on the left channel of a stereo buffer. -/
theorem scsf_block_push_deferred_witness :
    ((1 : ℕ) ≤ 2 ∧ (1 : ℕ) ≤ 29 ∧ ([(3 : ℚ), 4, 5] : List ℚ).length = 1 * 2 + 1
      ∧ (AudioBuffer.mk [[9, 9, 9], [3, 4, 5]] : AudioBuffer ℚ).channels.get?
          Channel.Left.toIndex = some [3, 4, 5])
    ∧ ((SingleChannelSampleFifo.prepare Channel.Left 2 (0 : ℚ)).update
          (AudioBuffer.mk [[9, 9, 9], [3, 4, 5]])
        = some ((SingleChannelSampleFifo.prepare Channel.Left 2 (0 : ℚ)).deliver [3, 4, 5])
      ∧ ((SingleChannelSampleFifo.prepare Channel.Left 2 (0 : ℚ)).deliver
          [3, 4, 5]).getNumCompleteBuffersAvailable = 1
      ∧ (Fifo.pullN ((SingleChannelSampleFifo.prepare Channel.Left 2 (0 : ℚ)).deliver
          [3, 4, 5]).audioBufferFifo 1).1 = (chunkList [(3 : ℚ), 4, 5] 2 1).map some) :=
  ⟨⟨by decide, by decide, by decide, by decide⟩,
    scsf_block_push_deferred 0 Channel.Left 2 1 [3, 4, 5]
      (AudioBuffer.mk [[9, 9, 9], [3, 4, 5]]) (by decide) (by decide) (by decide) (by decide)⟩

/-- Full characterisation of `updateCutFilter`: section `i` ends bypassed
iff `slope < i`; sections `0..slope` receive coefficient set `i`; the
others keep their old coefficients; no section's filter state changes. -/
theorem updateCutFilter_sections (cut : CutChain) (cc : ℕ → CoeffVal) (slope : Slope)
    (i : Fin 4) :
    ((updateCutFilter cut cc slope).get i).bypassed = decide (slope.ord < i.val)
    ∧ ((updateCutFilter cut cc slope).get i).coefficients
        = (if i.val ≤ slope.ord then cc i.val else (cut.get i).coefficients)
    ∧ ((updateCutFilter cut cc slope).get i).state = (cut.get i).state := by
  cases slope <;> fin_cases i <;>
    simp [updateCutFilter, CutChain.get, CutChain.setBypassed, CutChain.updateSec,
      updateCoefficientsVal, Slope.ord]

/-- The active-section count after `updateCutFilter` is `slope.ord + 1`. -/
theorem updateCutFilter_activeCount (cut : CutChain) (cc : ℕ → CoeffVal) (slope : Slope) :
    (updateCutFilter cut cc slope).activeCount = slope.ord + 1 := by
  cases slope <;>
    simp [updateCutFilter, CutChain.activeCount, CutChain.setBypassed, CutChain.updateSec,
      Slope.ord]

/-- C1: for every cut chain state, coefficient array and each of the 4
slope values (hence for the arrays `makeLowCutFilter`/`makeHighCutFilter`
produce from any valid `ChainSettings` and sample rate), `updateCutFilter`
leaves exactly `slope.ord + 1` sections active — section `i` non-bypassed
with coefficient set `i` for every `i ≤ slope.ord` — and every remaining
section bypassed. -/
theorem updateCutFilter_activates_exactly_slope_sections
    (cut : CutChain) (cc : ℕ → CoeffVal) (slope : Slope) :
    (updateCutFilter cut cc slope).activeCount = slope.ord + 1
    ∧ ∀ i : Fin 4,
        ((updateCutFilter cut cc slope).get i).bypassed = decide (slope.ord < i.val)
        ∧ ((updateCutFilter cut cc slope).get i).coefficients
            = (if i.val ≤ slope.ord then cc i.val else (cut.get i).coefficients) :=
  ⟨updateCutFilter_activeCount cut cc slope,
    fun i => ⟨(updateCutFilter_sections cut cc slope i).1,
      (updateCutFilter_sections cut cc slope i).2.1⟩⟩

/-- C2: `updateCoefficients` (the C++ `*old = *replacements`) replaces
the stored coefficient set wholesale: the result is exactly the
replacement value — every entry comes from the replacement, the length
is the replacement's, and the outcome does not depend on the old value
in any way (no partial in-place mutation survives). -/
theorem updateCoefficients_wholesale (old replacements : List ℚ) :
    updateCoefficients old replacements = replacements
    ∧ (∀ old2 : List ℚ, updateCoefficients old2 replacements
        = updateCoefficients old replacements)
    ∧ (updateCoefficients old replacements).length = replacements.length
    ∧ ∀ i : ℕ, (updateCoefficients old replacements).get? i = replacements.get? i := by
  have h : ∀ l : List ℚ, l.foldr List.cons [] = l := by
    intro l
    induction l with
    | nil => rfl
    | cons a t ih => simp [ih]
  refine ⟨h replacements, fun old2 => rfl, ?_, ?_⟩
  · rw [updateCoefficients, h replacements]
  · intro i
    rw [updateCoefficients, h replacements]

theorem FilterSection.processBlock_coefficients (step : SectionStep) (s : FilterSection)
    (xs : List ℚ) : ((s.processBlock step xs).2).coefficients = s.coefficients := by
  rw [FilterSection.processBlock]
  split <;> simp

theorem FilterSection.processBlock_bypassed (step : SectionStep) (s : FilterSection)
    (xs : List ℚ) : ((s.processBlock step xs).2).bypassed = s.bypassed := by
  rw [FilterSection.processBlock]
  split <;> simp

theorem FilterSection.processBlock_activeCoeff (step : SectionStep) (s : FilterSection)
    (xs : List ℚ) : ((s.processBlock step xs).2).activeCoeff = s.activeCoeff := by
  rw [FilterSection.activeCoeff, FilterSection.activeCoeff,
    FilterSection.processBlock_coefficients, FilterSection.processBlock_bypassed]

/-- Processing a block never changes which coefficients are loaded nor
any bypass flag. -/
theorem CutChain.processBlock_preserves_cut_view (step : SectionStep) (c : CutChain) (xs : List ℚ) :
    ((c.processBlock step xs).2).coeffView = c.coeffView := by
  funext i
  fin_cases i <;>
    simp [CutChain.processBlock, CutChain.coeffView, CutChain.get,
      FilterSection.processBlock_activeCoeff]

theorem MonoChain.processBlock_preserves_chain_view (step : SectionStep) (c : MonoChain) (xs : List ℚ) :
    ((c.processBlock step xs).2).coeffView = c.coeffView := by
  rw [MonoChain.coeffView, MonoChain.coeffView]
  simp [MonoChain.processBlock, CutChain.processBlock_preserves_cut_view,
    FilterSection.processBlock_coefficients]

/-- After `updateCutFilter` the observable coefficient assignment is the
canonical one of its coefficient array and slope. -/
theorem updateCutFilter_coeffView (cut : CutChain) (cc : ℕ → CoeffVal) (slope : Slope) :
    (updateCutFilter cut cc slope).coeffView = canonicalCutView cc slope := by
  funext i
  have h := updateCutFilter_sections cut cc slope i
  rw [CutChain.coeffView, canonicalCutView, FilterSection.activeCoeff, h.1, h.2.1]
  by_cases hle : i.val ≤ slope.ord
  · simp [hle, Nat.not_lt.mpr hle]
  · simp [hle, Nat.lt_of_not_le hle]

/-- `updateFilters` loads both chains with exactly the coefficient
assignment dictated by the current parameter snapshot and sample rate. -/
theorem Engine.updateFilters_coeffView (e : Engine) :
    (e.updateFilters).leftChannelChain.coeffView = canonicalView e.settings e.sampleRate
    ∧ (e.updateFilters).rightChannelChain.coeffView = canonicalView e.settings e.sampleRate := by
  constructor <;>
    simp [Engine.updateFilters, getChainSettings, Engine.updateLowCutFilters,
      Engine.updatePeakFilter, Engine.updateHighCutFilters, MonoChain.coeffView,
      canonicalView, updateCutFilter_coeffView, updateCoefficientsVal]

/-- C3: every call to `processBlock` — whether or not any parameter
changed — loads both channel chains with the coefficient assignment
recomputed from the current parameter snapshot (low cut, peak and high
cut), and processes the block's samples with the freshly updated chains
(`updateFilters` runs before the channel blocks are processed). -/
theorem processBlock_recomputes_all_coefficients (step : SectionStep) (numIn numOut : ℕ)
    (e : Engine) (buffer : AudioBuffer ℚ) :
    ((Engine.processBlock step numIn numOut e buffer).2).leftChannelChain.coeffView
        = canonicalView e.settings e.sampleRate
    ∧ ((Engine.processBlock step numIn numOut e buffer).2).rightChannelChain.coeffView
        = canonicalView e.settings e.sampleRate
    ∧ (∀ leftBlock rightBlock,
        (clearFrom numIn numOut 0 buffer.channels).get? 0 = some leftBlock →
        (clearFrom numIn numOut 0 buffer.channels).get? 1 = some rightBlock →
        (Engine.processBlock step numIn numOut e buffer).1 =
          some ⟨((clearFrom numIn numOut 0 buffer.channels).set 0
              ((e.updateFilters).leftChannelChain.processBlock step leftBlock).1).set 1
              ((e.updateFilters).rightChannelChain.processBlock step rightBlock).1⟩) := by
  cases hc0 : (clearFrom numIn numOut 0 buffer.channels)[0]? with
  | none =>
      refine ⟨?_, ?_, ?_⟩
      · simp [Engine.processBlock, hc0, (Engine.updateFilters_coeffView e).1]
      · simp [Engine.processBlock, hc0, (Engine.updateFilters_coeffView e).2]
      · intro lb rb h0 _
        rw [List.get?_eq_getElem?, hc0] at h0
        exact absurd h0 (by simp)
  | some lb0 =>
      cases hc1 : (clearFrom numIn numOut 0 buffer.channels)[1]? with
      | none =>
          refine ⟨?_, ?_, ?_⟩
          · simp [Engine.processBlock, hc0, hc1, (Engine.updateFilters_coeffView e).1]
          · simp [Engine.processBlock, hc0, hc1, (Engine.updateFilters_coeffView e).2]
          · intro lb rb _ h1
            rw [List.get?_eq_getElem?, hc1] at h1
            exact absurd h1 (by simp)
      | some rb0 =>
          refine ⟨?_, ?_, ?_⟩
          · simp [Engine.processBlock, hc0, hc1, MonoChain.processBlock_preserves_chain_view,
              (Engine.updateFilters_coeffView e).1]
          · simp [Engine.processBlock, hc0, hc1, MonoChain.processBlock_preserves_chain_view,
              (Engine.updateFilters_coeffView e).2]
          · intro lb rb h0 h1
            rw [List.get?_eq_getElem?, hc0] at h0
            rw [List.get?_eq_getElem?, hc1] at h1
            cases h0
            cases h1
            simp [Engine.processBlock, hc0, hc1]

/-- Witness for the ordering part of
`processBlock_recomputes_all_coefficients` at concrete inputs. -/
theorem processBlock_recomputes_all_coefficients_witness :
    ((clearFrom 2 2 0 ([[1], [2]] : List (List ℚ))).get? 0 = some [1]
      ∧ (clearFrom 2 2 0 ([[1], [2]] : List (List ℚ))).get? 1 = some [2])
    ∧ (Engine.processBlock zeroStep 2 2 defaultEngine ⟨[[1], [2]]⟩).1 =
        some ⟨((clearFrom 2 2 0 ([[1], [2]] : List (List ℚ))).set 0
            ((defaultEngine.updateFilters).leftChannelChain.processBlock zeroStep [1]).1).set 1
            ((defaultEngine.updateFilters).rightChannelChain.processBlock zeroStep [2]).1⟩ :=
  ⟨⟨by decide, by decide⟩,
    (processBlock_recomputes_all_coefficients zeroStep 2 2 defaultEngine ⟨[[1], [2]]⟩).2.2
      [1] [2] (by decide) (by decide)⟩

theorem clearFrom_no_extra (numIn numOut : ℕ) (h : numOut ≤ numIn) :
    ∀ (i : ℕ) (l : List (List ℚ)), clearFrom numIn numOut i l = l := by
  intro i l
  induction l generalizing i with
  | nil => rfl
  | cons c rest ih => rw [clearFrom, if_neg (by omega), ih]

theorem clearFrom_length (numIn numOut : ℕ) :
    ∀ (i : ℕ) (l : List (List ℚ)), (clearFrom numIn numOut i l).length = l.length := by
  intro i l
  induction l generalizing i with
  | nil => rfl
  | cons c rest ih => rw [clearFrom, List.length_cons, List.length_cons, ih]

theorem set2_get0 {α : Type} (l : List α) (a b : α) (h : 2 ≤ l.length) :
    ((l.set 0 a).set 1 b)[0]? = some a := by
  rw [← List.get?_eq_getElem?, List.get?_set_ne _ _ (by omega : (1 : ℕ) ≠ 0),
    List.get?_set_eq]
  have h0 : 0 < l.length := by omega
  simp [List.get?_eq_getElem?, List.getElem?_eq_getElem h0]

theorem set2_get1 {α : Type} (l : List α) (a b : α) (h : 2 ≤ l.length) :
    ((l.set 0 a).set 1 b)[1]? = some b := by
  rw [← List.get?_eq_getElem?, List.get?_set_eq]
  have h1 : 1 < (l.set 0 a).length := by simp; omega
  simp [List.get?_eq_getElem?, List.getElem?_eq_getElem h1]

/-- `updateFilters` computes each channel's chain from the parameter
snapshot, the sample rate and that channel's own previous chain only. -/
theorem Engine.updateFilters_left_congr (e1 e2 : Engine)
    (hs : e1.settings = e2.settings) (hr : e1.sampleRate = e2.sampleRate)
    (hl : e1.leftChannelChain = e2.leftChannelChain) :
    (e1.updateFilters).leftChannelChain = (e2.updateFilters).leftChannelChain := by
  simp [Engine.updateFilters, getChainSettings, Engine.updateLowCutFilters,
    Engine.updatePeakFilter, Engine.updateHighCutFilters, hs, hr, hl]

theorem Engine.updateFilters_right_congr (e1 e2 : Engine)
    (hs : e1.settings = e2.settings) (hr : e1.sampleRate = e2.sampleRate)
    (hl : e1.rightChannelChain = e2.rightChannelChain) :
    (e1.updateFilters).rightChannelChain = (e2.updateFilters).rightChannelChain := by
  simp [Engine.updateFilters, getChainSettings, Engine.updateLowCutFilters,
    Engine.updatePeakFilter, Engine.updateHighCutFilters, hs, hr, hl]

/-- C9: with matched input/output channel counts, `processBlock`
processes the two channels independently and in place: the output of
channel 0 is a function only of channel 0's input samples, the left
chain's state and the shared parameters, and symmetrically the output of
channel 1 depends only on channel 1's input, the right chain and the
parameters — no cross-channel coupling, for every per-sample biquad
step. -/
theorem processBlock_channels_independent (step : SectionStep) (numIn numOut : ℕ)
    (e1 e2 : Engine) (b1 b2 : AudioBuffer ℚ)
    (hio : numIn = numOut)
    (hs : e1.settings = e2.settings) (hr : e1.sampleRate = e2.sampleRate)
    (hlen1 : 2 ≤ b1.channels.length) (hlen2 : 2 ≤ b2.channels.length) :
    (e1.leftChannelChain = e2.leftChannelChain →
      b1.channels.get? 0 = b2.channels.get? 0 →
      ((Engine.processBlock step numIn numOut e1 b1).1).map (fun b => b.channels.get? 0)
        = ((Engine.processBlock step numIn numOut e2 b2).1).map (fun b => b.channels.get? 0))
    ∧ (e1.rightChannelChain = e2.rightChannelChain →
      b1.channels.get? 1 = b2.channels.get? 1 →
      ((Engine.processBlock step numIn numOut e1 b1).1).map (fun b => b.channels.get? 1)
        = ((Engine.processBlock step numIn numOut e2 b2).1).map (fun b => b.channels.get? 1)) := by
  have hcl1 : clearFrom numIn numOut 0 b1.channels = b1.channels :=
    clearFrom_no_extra numIn numOut (by omega) 0 b1.channels
  have hcl2 : clearFrom numIn numOut 0 b2.channels = b2.channels :=
    clearFrom_no_extra numIn numOut (by omega) 0 b2.channels
  obtain ⟨c10, hc10⟩ : ∃ c, b1.channels.get? 0 = some c :=
    ⟨b1.channels.get ⟨0, by omega⟩, List.get?_eq_get (by omega)⟩
  obtain ⟨c11, hc11⟩ : ∃ c, b1.channels.get? 1 = some c :=
    ⟨b1.channels.get ⟨1, by omega⟩, List.get?_eq_get (by omega)⟩
  obtain ⟨c20, hc20⟩ : ∃ c, b2.channels.get? 0 = some c :=
    ⟨b2.channels.get ⟨0, by omega⟩, List.get?_eq_get (by omega)⟩
  obtain ⟨c21, hc21⟩ : ∃ c, b2.channels.get? 1 = some c :=
    ⟨b2.channels.get ⟨1, by omega⟩, List.get?_eq_get (by omega)⟩
  rw [List.get?_eq_getElem?] at hc10 hc11 hc20 hc21
  constructor
  · intro hl h0
    have hc : c10 = c20 := by
      rw [List.get?_eq_getElem?, hc10] at h0
      rw [List.get?_eq_getElem?, hc20] at h0
      exact Option.some.inj h0
    have hchain := Engine.updateFilters_left_congr e1 e2 hs hr hl
    simp only [Engine.processBlock, hcl1, hcl2, List.get?_eq_getElem?, hc10, hc11, hc20,
      hc21, Option.map_some']
    rw [set2_get0 _ _ _ hlen1, set2_get0 _ _ _ hlen2, hchain, hc]
  · intro hrc h1
    have hc : c11 = c21 := by
      rw [List.get?_eq_getElem?, hc11] at h1
      rw [List.get?_eq_getElem?, hc21] at h1
      exact Option.some.inj h1
    have hchain := Engine.updateFilters_right_congr e1 e2 hs hr hrc
    simp only [Engine.processBlock, hcl1, hcl2, List.get?_eq_getElem?, hc10, hc11, hc20,
      hc21, Option.map_some']
    rw [set2_get1 _ _ _ hlen1, set2_get1 _ _ _ hlen2, hchain, hc]

/-- Witness for `processBlock_channels_independent`: two stereo buffers
sharing channel 0 but differing in channel 1 produce the same channel 0
output. -/
theorem processBlock_channels_independent_witness :
    ((2 : ℕ) = 2
      ∧ defaultEngine.settings = defaultEngine.settings
      ∧ defaultEngine.sampleRate = defaultEngine.sampleRate
      ∧ 2 ≤ (AudioBuffer.mk [[1], [2]] : AudioBuffer ℚ).channels.length
      ∧ 2 ≤ (AudioBuffer.mk [[1], [3]] : AudioBuffer ℚ).channels.length
      ∧ defaultEngine.leftChannelChain = defaultEngine.leftChannelChain
      ∧ (AudioBuffer.mk [[1], [2]] : AudioBuffer ℚ).channels.get? 0
          = (AudioBuffer.mk [[1], [3]] : AudioBuffer ℚ).channels.get? 0)
    ∧ ((Engine.processBlock zeroStep 2 2 defaultEngine ⟨[[1], [2]]⟩).1).map
        (fun b => b.channels.get? 0)
      = ((Engine.processBlock zeroStep 2 2 defaultEngine ⟨[[1], [3]]⟩).1).map
        (fun b => b.channels.get? 0) :=
  ⟨⟨rfl, rfl, rfl, by decide, by decide, rfl, by decide⟩,
    (processBlock_channels_independent zeroStep 2 2 defaultEngine defaultEngine
      ⟨[[1], [2]]⟩ ⟨[[1], [3]]⟩ rfl rfl rfl (by decide) (by decide)).1 rfl (by decide)⟩

/-- C10: `isBusesLayoutSupported` accepts a mono main bus layout, yet
`processBlock` unconditionally takes the single-channel blocks 0 and 1
(and the two sample collectors are configured with `Channel::Left = 1`
and `Channel::Right = 0`), so every call needs a buffer with at least 2
channels: on a 1-channel buffer the channel-1 access is out of range. -/
theorem processBlock_requires_two_channels :
    isBusesLayoutSupported AudioChannelSet.mono AudioChannelSet.mono = true
    ∧ Channel.Left.toIndex = 1
    ∧ Channel.Right.toIndex = 0
    ∧ ∀ (step : SectionStep) (numIn numOut : ℕ) (e : Engine) (buffer : AudioBuffer ℚ),
        buffer.channels.length = 1 →
        (Engine.processBlock step numIn numOut e buffer).1 = none := by
  refine ⟨rfl, rfl, rfl, ?_⟩
  intro step numIn numOut e buffer hlen
  have hclen : (clearFrom numIn numOut 0 buffer.channels).length = 1 := by
    rw [clearFrom_length]
    exact hlen
  have h1 : (clearFrom numIn numOut 0 buffer.channels)[1]? = none := by
    rw [← List.get?_eq_getElem?]
    exact List.get?_eq_none.mpr (by omega)
  cases hc0 : (clearFrom numIn numOut 0 buffer.channels)[0]? <;>
    simp [Engine.processBlock, hc0, h1]

/-- Witness for `processBlock_requires_two_channels` on a concrete
1-channel buffer. -/
theorem processBlock_requires_two_channels_witness :
    ((AudioBuffer.mk [[1, 2, 3]] : AudioBuffer ℚ).channels.length = 1)
    ∧ (Engine.processBlock zeroStep 1 1 defaultEngine ⟨[[1, 2, 3]]⟩).1 = none :=
  ⟨by decide, processBlock_requires_two_channels.2.2.2 zeroStep 1 1 defaultEngine
    ⟨[[1, 2, 3]]⟩ (by decide)⟩

theorem mapWithIndex_get? (f : ℕ → FVal → FVal) :
    ∀ (l : List FVal) (i j : ℕ),
      (mapWithIndex f i l).get? j = (l.get? j).map (f (i + j)) := by
  intro l
  induction l with
  | nil => intro i j; rfl
  | cons v rest ih =>
      intro i j
      cases j with
      | zero => rfl
      | succ j =>
          rw [mapWithIndex]
          show (mapWithIndex f (i + 1) rest).get? j = (rest.get? j).map (f (i + (j + 1)))
          rw [ih (i + 1) j]
          have h : i + 1 + j = i + (j + 1) := by omega
          rw [h]

/-- C7: for every post-FFT float vector (any NaN or infinity anywhere)
every entry `i < fftSize / 2` of the produced dB vector is finite and at
least `negativeInfinity`: non-finite bins are zeroed before the
normalisation by `numBins`, and the dB conversion floors at
`negativeInfinity`. -/
theorem fft_bins_finite_and_floored (log10 : ℚ → ℚ) (fftData : List FVal)
    (negativeInfinity : ℚ) (fftSize : ℕ) (i : ℕ)
    (hi : i < fftSize / 2) (hlen : i < fftData.length) :
    ∃ q : ℚ,
      (produceFFTDataForRendering log10 fftData negativeInfinity fftSize).get? i
        = some (.fin q)
      ∧ negativeInfinity ≤ q := by
  obtain ⟨v, hv⟩ : ∃ v, fftData.get? i = some v :=
    ⟨fftData.get ⟨i, hlen⟩, List.get?_eq_get hlen⟩
  rw [produceFFTDataForRendering, decibelBins, mapWithIndex_get?, normalizeBins,
    mapWithIndex_get?, hv]
  simp only [Nat.zero_add, Option.map_some', if_pos hi]
  have hbins : fftSize / 2 ≠ 0 := by omega
  cases v with
  | fin q =>
      simp only [FVal.isInf, FVal.isNan, FVal.divNat, if_neg hbins]
      norm_num
      by_cases hq : 0 < q / ((fftSize / 2 : ℕ) : ℚ)
      · exact ⟨max negativeInfinity (20 * log10 (q / ((fftSize / 2 : ℕ) : ℚ))),
          by rw [gainToDecibels, if_pos hq], le_max_left _ _⟩
      · exact ⟨negativeInfinity, by rw [gainToDecibels, if_neg hq], le_refl _⟩
  | nan =>
      refine ⟨negativeInfinity, ?_, le_refl _⟩
      simp [FVal.isInf, FVal.isNan, gainToDecibels]
  | inf =>
      refine ⟨negativeInfinity, ?_, le_refl _⟩
      simp [FVal.isInf, FVal.isNan, gainToDecibels]
  | ninf =>
      refine ⟨negativeInfinity, ?_, le_refl _⟩
      simp [FVal.isInf, FVal.isNan, gainToDecibels]

/-- Witness for `fft_bins_finite_and_floored`: a NaN bin of a 4-point
FFT is scrubbed to 0 and floored to the −48 dB floor. -/
theorem fft_bins_finite_and_floored_witness :
    ((0 : ℕ) < 4 / 2 ∧ (0 : ℕ) < ([FVal.nan, .fin 4, .inf, .fin 0] : List FVal).length)
    ∧ ∃ q : ℚ,
        (produceFFTDataForRendering (fun q => q) [FVal.nan, .fin 4, .inf, .fin 0]
          (-48) 4).get? 0 = some (.fin q)
        ∧ (-48 : ℚ) ≤ q :=
  ⟨⟨by decide, by decide⟩,
    fft_bins_finite_and_floored (fun q => q) [FVal.nan, .fin 4, .inf, .fin 0]
      (-48) 4 0 (by decide) (by decide)⟩

/-- C8 counterexample: the y mapping of `generatePath` is an unclamped
linear map — `negativeInfinity` itself lands at `bottom + 10`, ten
pixels below the bottom edge of the render area, and nothing clamps it.
With bounds `y = 0`, `height = 100` the first point of the produced path
has `y = 110 > 100`, refuting "clamped to the render area". -/
theorem analyzer_path_unclamped_counterexample :
    (generatePath (fun q => q) [.fin (-48), .fin (-48), .fin 0, .fin 0]
        0 100 100 4 1 (-48)).map List.head?
      = some (some ⟨.fin 0, .fin 110⟩)
    ∧ ¬ ((110 : ℚ) ≤ 0 + 100) := by
  constructor
  · rw [generatePath, if_pos (by decide)]
    simp only [Option.map_some', Option.some.injEq, List.head?_cons]
    norm_num [analyzerMapY, jmap, FVal.isNonFinite, FVal.isNan, FVal.isInf, List.getD]
  · norm_num

/-- C8 (amended): for every dB vector and render bounds, `generatePath`
maps each sampled bin (every 2nd bin starting at bin 1) to the
log-frequency x-coordinate `floor(width * mapFromLog10(binNum *
binWidth, 20, 20000))` and maps its dB value linearly — without
clamping — by `jmap(v, negativeInfinity, 0, bottom + 10, top)`; a
non-finite mapped value for bin 0 is replaced by the `bottom` value and
later bins with a non-finite mapped value are skipped, so the produced
path never contains a non-finite coordinate. -/
theorem analyzer_path_structure_and_finite (log10 : ℚ → ℚ) (renderData : List FVal)
    (top bottomH width : ℚ) (fftSize : ℕ) (binWidth : ℚ) (negativeInfinity : ℚ)
    (h0 : 0 < renderData.length) (hbins : fftSize / 2 ≤ renderData.length) :
    ∃ p, generatePath log10 renderData top bottomH width fftSize binWidth negativeInfinity
        = some p
      ∧ p = (⟨.fin 0,
            if (analyzerMapY negativeInfinity top bottomH
                (renderData.getD 0 .nan)).isNonFinite then .fin bottomH
            else analyzerMapY negativeInfinity top bottomH (renderData.getD 0 .nan)⟩ :
          PathPoint) ::
          (List.range' 1 (fftSize / 2 / 2) 2).filterMap
            (analyzerPoint log10 renderData negativeInfinity top bottomH width binWidth)
      ∧ ∀ pt ∈ p, pt.x.isNonFinite = false ∧ pt.y.isNonFinite = false := by
  rw [generatePath, if_pos ⟨h0, hbins⟩]
  refine ⟨_, rfl, rfl, ?_⟩
  intro pt hpt
  rcases List.mem_cons.mp hpt with hhead | htail
  · subst hhead
    refine ⟨rfl, ?_⟩
    show (if (analyzerMapY negativeInfinity top bottomH
        (renderData.getD 0 .nan)).isNonFinite = true then FVal.fin bottomH
      else analyzerMapY negativeInfinity top bottomH
        (renderData.getD 0 .nan)).isNonFinite = false
    by_cases hy : (analyzerMapY negativeInfinity top bottomH
        (renderData.getD 0 .nan)).isNonFinite = true
    · rw [if_pos hy]
      rfl
    · rw [if_neg hy]
      simpa using hy
  · obtain ⟨binNum, _, hbin⟩ := List.mem_filterMap.mp htail
    rw [analyzerPoint] at hbin
    by_cases hy : (analyzerMapY negativeInfinity top bottomH
        (renderData.getD binNum .nan)).isNonFinite = true
    · rw [if_pos hy] at hbin
      exact absurd hbin (by simp)
    · rw [if_neg hy] at hbin
      simp only [Option.some.injEq] at hbin
      subst hbin
      refine ⟨rfl, ?_⟩
      simpa using hy

/-- Witness for `analyzer_path_structure_and_finite` at the
counterexample's concrete inputs. -/
theorem analyzer_path_structure_and_finite_witness :
    ((0 : ℕ) < ([.fin (-48), .fin (-48), .fin 0, .fin 0] : List FVal).length
      ∧ (4 : ℕ) / 2 ≤ ([.fin (-48), .fin (-48), .fin 0, .fin 0] : List FVal).length)
    ∧ ∃ p, generatePath (fun q => q) [.fin (-48), .fin (-48), .fin 0, .fin 0]
          0 100 100 4 1 (-48) = some p
        ∧ p = (⟨.fin 0,
              if (analyzerMapY (-48) 0 100
                  (([.fin (-48), .fin (-48), .fin 0, .fin 0] : List FVal).getD 0
                    .nan)).isNonFinite then .fin 100
              else analyzerMapY (-48) 0 100
                (([.fin (-48), .fin (-48), .fin 0, .fin 0] : List FVal).getD 0 .nan)⟩ :
            PathPoint) ::
            (List.range' 1 (4 / 2 / 2) 2).filterMap
              (analyzerPoint (fun q => q) [.fin (-48), .fin (-48), .fin 0, .fin 0]
                (-48) 0 100 100 1)
        ∧ ∀ pt ∈ p, pt.x.isNonFinite = false ∧ pt.y.isNonFinite = false :=
  ⟨⟨by decide, by decide⟩,
    analyzer_path_structure_and_finite (fun q => q)
      [.fin (-48), .fin (-48), .fin 0, .fin 0] 0 100 100 4 1 (-48)
      (by decide) (by decide)⟩

end Equalizador
